import Mathlib

/-!
Shallow embedding of the `gogridengine` Go package (files `job.go` and the
resource/storage half of the package) together with theorems checking the
package's specification against it.

Modelling conventions:
* Go strings are modelled as Lean `String`/`List Char` (all values of interest
  are ASCII, so Go's byte indexing coincides with character indexing).
* `int64`/`int32` are modelled as `Int` with the explicit range checks that
  `strconv.ParseInt` performs; the expansion loop's `int64` counter additionally
  wraps modulo `2^64` on overflow (`wrapInt64`), matching Go's two's-complement
  arithmetic, so the model diverges exactly where the Go loop does.
* Functions returning `(T, error)` in Go are modelled as `T × Option String`
  (`none` = nil error).  A function that can abort the process (index out of
  range) returns `GoCall (T × Option String)` where the `panics` constructor
  records the abort.  The potentially non-terminating range-expansion loop
  takes a fuel argument and returns `Option` (`none` = fuel exhausted, i.e. the
  Go loop has not returned after that many iterations).
* `float64` values are modelled exactly as dyadic rationals `m * 2^exp`
  (structure `F64`), with correct IEEE-754 round-to-nearest-even performed on
  parsing and multiplication, which is what `strconv.ParseFloat` and Go's `*`
  on `float64` do.  Special float syntax (hex floats, Inf/NaN, digit
  underscores) is not modelled; the spec and the repository only use plain
  decimal values.
-/

set_option maxRecDepth 16384

namespace GoGridEngine

/-- Decimal digit test, Go `[0-9]` / `'0' <= c && c <= '9'` (code points 48..57). -/
def isDigitChar (c : Char) : Bool := 48 ≤ c.toNat && c.toNat ≤ 57

/-- Numeric value of a decimal digit character. -/
def digitVal (c : Char) : Nat := c.toNat - 48

/-- Value of a decimal digit string, most significant digit first.  This is the
accumulation loop inside Go's `strconv.ParseInt`. -/
def digitsToNat (l : List Char) : Nat := l.foldl (fun a c => a * 10 + digitVal c) 0

/-- Character for a decimal digit value below ten. -/
def digitChar (d : Nat) : Char :=
  match d with
  | 0 => '0' | 1 => '1' | 2 => '2' | 3 => '3' | 4 => '4'
  | 5 => '5' | 6 => '6' | 7 => '7' | 8 => '8' | _ => '9'

/-- Fuelled most-significant-first decimal digit expansion (fuel keeps the
recursion structural so that the kernel can evaluate it). -/
def natDigitsAux : Nat → Nat → List Char
  | 0, _ => []
  | f + 1, n => if n < 10 then [digitChar n] else natDigitsAux f (n / 10) ++ [digitChar (n % 10)]

/-- Decimal digit string of a natural number, as produced by Go's `strconv.Itoa`
for non-negative values. -/
def natDigits (n : Nat) : List Char := natDigitsAux (n + 1) n

/-- Model of Go's `strconv.Itoa` (on a 64-bit platform `int(x)` is the identity
on `int64` values, so `strconv.Itoa(int(v))` is the canonical decimal form of `v`). -/
def intToString (v : Int) : String :=
  if v < 0 then String.mk ('-' :: natDigits v.natAbs) else String.mk (natDigits v.natAbs)

/-- Leading-sign splitting shared by Go's `strconv.ParseInt` and `strconv.ParseFloat`:
strips one optional `+` or `-` and reports whether the value is negated. -/
def splitSign (l : List Char) : Bool × List Char :=
  match l with
  | c :: rest => if c = '-' then (true, rest) else if c = '+' then (false, rest) else (false, l)
  | [] => (false, [])

/-- Digit-run parser used by the `strconv.ParseInt` model: succeeds exactly on a
non-empty all-digit string. -/
def decDigits? (l : List Char) : Option Nat :=
  if l ≠ [] ∧ l.all isDigitChar then some (digitsToNat l) else none

/-- Model of Go's `strconv.ParseInt(s, 10, bits)`: optional sign, non-empty digit
run, and the `bits`-width range check.  `none` covers both the syntax error and
the range error (the modelled code only tests the error for nil-ness). -/
def parseIntChars (bits : Nat) (l : List Char) : Option Int :=
  let s := splitSign l
  match decDigits? s.2 with
  | none => none
  | some n =>
    if s.1 then (if (n : Int) ≤ 2 ^ (bits - 1) then some (-(n : Int)) else none)
    else (if (n : Int) ≤ 2 ^ (bits - 1) - 1 then some (n : Int) else none)

/-- Model of Go's `strings.Contains(s, string(c))` for a one-character needle. -/
def goContains (s : String) (c : Char) : Bool := s.data.any (fun x => x == c)

/-- Model of Go's `strings.Split` on a one-character separator. -/
def splitOnChar (sep : Char) : List Char → List (List Char)
  | [] => [[]]
  | c :: rest =>
    let r := splitOnChar sep rest
    if c = sep then [] :: r
    else
      match r with
      | [] => [[c]]
      | h :: t => (c :: h) :: t

/-! ## Model of the compiled regular expression `[0-9]{1,}-[0-9]{1,}:[0-9]`

`TASKRANGEIDENTIFIERREGEX` in `job.go` is the fixed pattern
`[0-9]{1,}-[0-9]{1,}:[0-9]` — note the final `[0-9]` matches exactly ONE digit.
Go's `regexp` uses leftmost-first matching; for this pattern the greedy digit
runs never backtrack (shortening a digit run can only expose another digit
where a literal `-`/`:` is required), so a match attempt at a position succeeds
iff the maximal digit run there is followed by `-`, another maximal digit run,
`:` and one further digit.  `matchRangeAt` is that single-position attempt and
`findRange` models `FindString`/`MatchString` by scanning positions left to
right. -/

/-- Match attempt for `[0-9]{1,}-[0-9]{1,}:[0-9]` anchored at the head of `l`;
returns the matched text. -/
def matchRangeAt (l : List Char) : Option (List Char) :=
  let d1 := l.takeWhile isDigitChar
  match d1, l.dropWhile isDigitChar with
  | _ :: _, h1 :: r2 =>
    if h1 = '-' then
      let d2 := r2.takeWhile isDigitChar
      match d2, r2.dropWhile isDigitChar with
      | _ :: _, h2 :: r4 =>
        if h2 = ':' then
          match r4 with
          | c :: _ => if isDigitChar c then some (d1 ++ '-' :: (d2 ++ [':', c])) else none
          | [] => none
        else none
      | _, _ => none
    else none
  | _, _ => none

/-- Leftmost match of the task-range pattern: Go `regexp.FindString` (and
`MatchString` via `Option.isSome`). -/
def findRange : List Char → Option (List Char)
  | [] => none
  | c :: rest =>
    match matchRangeAt (c :: rest) with
    | some m => some m
    | none => findRange rest

/-! ## Exact model of `float64` values and the operations Go applies to them -/

/-- A `float64` value represented exactly as the dyadic rational `m * 2^exp`. -/
structure F64 where
  m : Int
  exp : Int
deriving DecidableEq, Repr

/-- Fuelled bit-length helper (structural recursion so the kernel can evaluate it). -/
def natBitsAux : Nat → Nat → Nat
  | 0, _ => 0
  | f + 1, n => if n = 0 then 0 else natBitsAux f (n / 2) + 1

/-- Bit length of a natural number (`natBits n = ⌊log2 n⌋ + 1` for `n > 0`). -/
def natBits (n : Nat) : Nat := natBitsAux n n

/-- Rounding of the exact quotient `x / y` to the nearest integer, ties to even
(IEEE-754 default rounding). -/
def roundHalfEvenDiv (x y : Nat) : Nat :=
  let q := x / y
  let r := x % y
  if 2 * r < y then q else if y < 2 * r then q + 1 else if q % 2 = 0 then q else q + 1

/-- Binary exponent of the positive rational `a / b`: the unique `e` with
`2^e ≤ a/b < 2^(e+1)`. -/
def fracExp2 (a b : Nat) : Int :=
  let e0 : Int := (natBits a : Int) - (natBits b : Int)
  if 0 ≤ e0 then (if b <<< e0.toNat ≤ a then e0 else e0 - 1)
  else (if b ≤ a <<< (-e0).toNat then e0 else e0 - 1)

/-- Correctly rounded conversion of the rational `± a / b` to a `float64` value:
round to a multiple of `2^g` where `g = max (e - 52) (-1074)` (53 significant
bits for normal values, fixed `2^-1074` granularity for subnormals), ties to even. -/
def roundFracToF64 (sign : Bool) (a b : Nat) : F64 :=
  if a = 0 then ⟨0, 0⟩
  else
    let e := fracExp2 a b
    let g := max (e - 52) (-1074)
    let n := if g ≤ 0 then roundHalfEvenDiv (a <<< (-g).toNat) b
             else roundHalfEvenDiv a (b <<< g.toNat)
    ⟨if sign then -(n : Int) else (n : Int), g⟩

/-- Go `float64` multiplication: exact product, then IEEE round to nearest/even.
(Overflow to infinity is not modelled; it is unreachable for the finite scale
factors and in-range parsed sizes handled here.) -/
def fmul (x y : F64) : F64 :=
  let M := x.m * y.m
  let E := x.exp + y.exp
  if 0 ≤ E then roundFracToF64 (decide (M < 0)) (M.natAbs <<< E.toNat) 1
  else roundFracToF64 (decide (M < 0)) M.natAbs (1 <<< (-E).toNat)

/-- Go conversion `int64(f)`: truncation toward zero. -/
def int64OfF64 (x : F64) : Int :=
  if 0 ≤ x.exp then x.m * (2 ^ x.exp.toNat) else x.m.tdiv (2 ^ (-x.exp).toNat)

/-- Correctly rounded conversion of a decimal `± mant * 10^ex` to `float64`. -/
def decToF64 (sign : Bool) (mant : Nat) (ex : Int) : F64 :=
  if 0 ≤ ex then roundFracToF64 sign (mant * 10 ^ ex.toNat) 1
  else roundFracToF64 sign mant (10 ^ (-ex).toNat)

/-- Syntactic part of the `strconv.ParseFloat` model: decimal mantissa with
optional sign, optional fraction and optional decimal exponent, returning
`(negative, mantissa digits value, base-10 exponent)`. -/
def parseDecimal (l : List Char) : Option (Bool × Nat × Int) :=
  let sg := splitSign l
  let rest := sg.2
  let ip := rest.takeWhile isDigitChar
  let r1 := rest.dropWhile isDigitChar
  let fr : List Char × List Char :=
    match r1 with
    | '.' :: t => (t.takeWhile isDigitChar, t.dropWhile isDigitChar)
    | _ => ([], r1)
  let fp := fr.1
  let r2 := fr.2
  if ip.isEmpty && fp.isEmpty then none
  else
    let mant := digitsToNat (ip ++ fp)
    let ex0 : Int := -(fp.length : Int)
    match r2 with
    | [] => some (sg.1, mant, ex0)
    | c :: t =>
      if c = 'e' ∨ c = 'E' then
        let sg2 := splitSign t
        if sg2.2 ≠ [] ∧ sg2.2.all isDigitChar then
          some (sg.1, mant,
            ex0 + (if sg2.1 then -(digitsToNat sg2.2 : Int) else (digitsToNat sg2.2 : Int)))
        else none
      else none

/-- Overflow test: the value `|m * 2^exp|` reaches `2^1024`, in which case
`strconv.ParseFloat` reports `ErrRange` (the value would round to infinity). -/
def f64IsLarge (x : F64) : Bool :=
  if 0 ≤ x.exp then 2 ^ 1024 ≤ x.m.natAbs * 2 ^ x.exp.toNat
  else 2 ^ (1024 + (-x.exp).toNat) ≤ x.m.natAbs

/-- Model of Go's `strconv.ParseFloat(s, 64)` on decimal input: parse, round to
the nearest `float64`, and fail (`ErrRange`) on overflow to infinity or
underflow of a nonzero value to zero. -/
def parseFloat64 (l : List Char) : Option F64 :=
  match parseDecimal l with
  | none => none
  | some (sign, mant, ex) =>
    let f := decToF64 sign mant ex
    if mant ≠ 0 ∧ f.m = 0 then none
    else if f64IsLarge f then none
    else some f

/-! ## Data model (`job.go` structs; XML-metadata fields omitted) -/

/-- Go struct `Task`: the raw `Source` text of the `<tasks>` element and the
`TaskID` populated when the source is a plain integer. -/
structure Task where
  source : String
  taskID : Int
deriving DecidableEq, Repr

/-- Go struct `Job` (the `XMLName` metadata field carries no data and is omitted).
`JATPriority` is a `float64` and is never computed with, only copied. -/
structure Job where
  stateAttribute : String
  state : String
  jbJobNumber : Int
  jatPriority : F64
  jobName : String
  jobOwner : String
  startTime : String
  submittedTime : String
  slots : Int
  tasks : Task
deriving DecidableEq, Repr

/-- Go type `JobList = []Job`. -/
abbrev JobList := List Job

/-- Go struct `Resource` (the `XMLName` metadata field is omitted). -/
structure Resource where
  name : String
  type : String
  value : String
deriving DecidableEq, Repr

/-- Go type `ResourceList = []Resource`. -/
abbrev ResourceList := List Resource

/-- Go struct `StorageValue`; `Size` is a `float64`, modelled exactly. -/
structure StorageValue where
  size : F64
  scale : String
  bytes : Int
deriving DecidableEq, Repr

/-- Outcome of a Go call that can abort the process: either a normal return or
a runtime panic. -/
inductive GoCall (α : Type) where
  | ret : α → GoCall α
  | panics : String → GoCall α
deriving DecidableEq, Repr

/-! ## Functions of `job.go` -/

/-- Model of `Task.UnmarshalXML` applied to the decoded element text `v`:
stores `v` in `Source`; when `v` has no colon it additionally parses `v` with
`strconv.ParseInt(v, 10, 64)` into `TaskID`, propagating the parse error. -/
def Task.unmarshalXML (v : String) : Task × Option String :=
  if goContains v ':' then ({ source := v, taskID := 0 }, none)
  else
    match parseIntChars 64 v.data with
    | none => ({ source := v, taskID := 0 }, some "strconv.ParseInt: invalid syntax")
    | some n => ({ source := v, taskID := n }, none)

/-- Model of `Task.MarshalXML`: the emitted element text, `none` when the nil
(absent/empty) element is encoded. -/
def Task.marshalXML (t : Task) : Option String :=
  if goContains t.source ':' then some t.source
  else if t.taskID = 0 then none
  else some (intToString t.taskID)

/-- Go function `IsJobRunning`. -/
def IsJobRunning (job : Job) : Int := if job.state = "r" then 1 else 0

/-- Method `JobList.Filter`: the Go loop appends, in order, exactly the elements
satisfying the predicate to a fresh slice. -/
def JobList.Filter (jl : JobList) (filter : Job → Bool) : JobList :=
  List.foldl (fun jobs v => if filter v then jobs ++ [v] else jobs) ([] : List Job) jl

/-- Go function `FilterJobs`: same loop as `JobList.Filter` with explicit arguments. -/
def FilterJobs (jobs : JobList) (filter : Job → Bool) : JobList :=
  List.foldl (fun jl v => if filter v then jl ++ [v] else jl) ([] : List Job) jobs

/-- Go function `DoesJobContainTaskRange`: `regexp.MatchString` of the constant
pattern against `j.Tasks.Source`, paired with the (always nil: the constant
pattern compiles) error. -/
def DoesJobContainTaskRange (j : Job) : Bool × Option String :=
  ((findRange j.tasks.source.data).isSome, none)

/-- The clone made inside the expansion loop: `lj := original; lj.Tasks.TaskID = i`. -/
def cloneWithTaskID (original : Job) (i : Int) : Job :=
  { original with tasks := { original.tasks with taskID := i } }

/-- Two's-complement wrap of an integer into the `int64` range
`[-2^63, 2^63 - 1]`: Go's `i + intrementor` on `int64` overflows this way. -/
def wrapInt64 (x : Int) : Int := (x + 2 ^ 63) % 2 ^ 64 - 2 ^ 63

/-- The `for i := beginInt; i <= endInt; i = i + intrementor` loop of
`ExtrapolateTasksToJobs`, with fuel; the `int64` counter wraps on overflow, and
`none` means the loop is still running after `fuel` iterations (for a
non-positive step, or when the increment past `end` overflows `int64`, it never
returns). -/
def extrapolateLoop (original : Job) : Nat → Int → Int → Int → List Job →
    Option (JobList × Option String)
  | 0, _, _, _, _ => none
  | fuel + 1, i, endInt, step, acc =>
    if i ≤ endInt then
      extrapolateLoop original fuel (wrapInt64 (i + step)) endInt step
        (acc ++ [cloneWithTaskID original i])
    else some (acc, none)

/-- Model of `ExtrapolateTasksToJobs`: range check, `FindString`, the two
`strings.Split` calls, three `strconv.ParseInt` calls, then the expansion loop. -/
def ExtrapolateTasksToJobs (fuel : Nat) (original : Job) : Option (JobList × Option String) :=
  let ok := DoesJobContainTaskRange original
  match ok.2 with
  | some msg => some ([], some msg)
  | none =>
    if !ok.1 then
      some ([], some "The provided job does not actually indicate a range of tasks")
    else
      let identifier := (findRange original.tasks.source.data).getD []
      let pieces := splitOnChar ':' identifier
      let rangeComponent := pieces.getD 0 []
      let incrementor := pieces.getD 1 []
      let rangePieces := splitOnChar '-' rangeComponent
      let beginPart := rangePieces.getD 0 []
      let endPart := rangePieces.getD 1 []
      match parseIntChars 64 incrementor with
      | none => some ([], some "strconv.ParseInt: invalid syntax")
      | some intrementor =>
        match parseIntChars 64 beginPart with
        | none => some ([], some "strconv.ParseInt: invalid syntax")
        | some beginInt =>
          match parseIntChars 64 endPart with
          | none => some ([], some "strconv.ParseInt: invalid syntax")
          | some endInt => extrapolateLoop original fuel beginInt endInt intrementor []

/-- Model of `newStorageValue`: `input[len(input)-1]` panics on the empty
string; otherwise the last character becomes `Scale`, the remainder is parsed
as a `float64` into `Size`, and the `switch` on the scale computes `Bytes`
(decimal factors, unknown suffix leaves zero). -/
def newStorageValue (input : String) : GoCall (StorageValue × Option String) :=
  match input.data.getLast? with
  | none => .panics "runtime error: index out of range"
  | some lastChar =>
    let scale := String.mk [lastChar]
    let remainingBytes := input.data.dropLast
    match parseFloat64 remainingBytes with
    | none => .ret ({ size := ⟨0, 0⟩, scale := "", bytes := 0 }, some "strconv.ParseFloat: parse error")
    | some remainingSize =>
      let bytes : Int :=
        if scale = "G" then int64OfF64 (fmul remainingSize ⟨1000000000, 0⟩)
        else if scale = "M" then int64OfF64 (fmul remainingSize ⟨1000000, 0⟩)
        else if scale = "T" then int64OfF64 (fmul remainingSize ⟨1000000000000, 0⟩)
        else 0
      .ret ({ size := remainingSize, scale := scale, bytes := bytes }, none)

/-- Method `ResourceList.locateKey`: linear scan returning the first `Resource`
whose name equals the key, or a fresh zero `Resource` plus the not-found error. -/
def ResourceList.locateKey (r : ResourceList) (key : String) : Resource × Option String :=
  match r with
  | [] => ({ name := "", type := "", value := "" }, some "Could not located the requested key")
  | c :: rest =>
    if c.name = key then (c, none) else ResourceList.locateKey rest key

/-- Method `ResourceList.Load`: locate `load_` + window and parse it as a float. -/
def ResourceList.Load (r : ResourceList) (window : String) : F64 × Option String :=
  let res := r.locateKey ("load_" ++ window)
  match res.2 with
  | some e => (⟨0, 0⟩, some e)
  | none =>
    match parseFloat64 res.1.value.data with
    | none => (⟨0, 0⟩, some "strconv.ParseFloat: parse error")
    | some v => (v, none)

/-- Method `ResourceList.NumberofProcessors`: locate `num_proc` and parse it
with `strconv.ParseInt(value, 10, 32)`. -/
def ResourceList.NumberofProcessors (r : ResourceList) : Int × Option String :=
  let res := r.locateKey "num_proc"
  match res.2 with
  | some e => (0, some e)
  | none =>
    match parseIntChars 32 res.1.value.data with
    | none => (0, some "Failure to convert to an integer from string")
    | some v => (v, none)

/-- Method `ResourceList.getStorageValueFromList`: locate the key and convert
its value with `newStorageValue` (whose panic propagates). -/
def ResourceList.getStorageValueFromList (r : ResourceList) (keyName : String) :
    GoCall (StorageValue × Option String) :=
  let res := r.locateKey keyName
  match res.2 with
  | some e => .ret ({ size := ⟨0, 0⟩, scale := "", bytes := 0 }, some e)
  | none => newStorageValue res.1.value

/-- Method `ResourceList.FreeMemory`. -/
def ResourceList.FreeMemory (r : ResourceList) : GoCall (StorageValue × Option String) :=
  r.getStorageValueFromList "mem_free"

/-- Method `ResourceList.FreeSwap`. -/
def ResourceList.FreeSwap (r : ResourceList) : GoCall (StorageValue × Option String) :=
  r.getStorageValueFromList "swap_free"

/-- Method `ResourceList.FreeVirtualMemory`. -/
def ResourceList.FreeVirtualMemory (r : ResourceList) : GoCall (StorageValue × Option String) :=
  r.getStorageValueFromList "virtual_free"

/-- Method `ResourceList.TotalMemory`. -/
def ResourceList.TotalMemory (r : ResourceList) : GoCall (StorageValue × Option String) :=
  r.getStorageValueFromList "mem_total"

/-- Method `ResourceList.getIntegerValueFromList`: locate the key and parse it
with `strconv.ParseInt(value, 10, 64)`. -/
def ResourceList.getIntegerValueFromList (r : ResourceList) (keyName : String) :
    Int × Option String :=
  let res := r.locateKey keyName
  match res.2 with
  | some e => (0, some e)
  | none =>
    match parseIntChars 64 res.1.value.data with
    | none => (0, some "strconv.ParseInt: invalid syntax")
    | some v => (v, none)

/-! ## Spec-side definitions

These two definitions follow the specification's words rather than the code;
the theorems below compare the code model against them. -/

/-- Specification wording for range detection: the source contains a substring
matching `\d+-\d+:\d+` — one or more digits, hyphen, one or more digits,
colon, one or more digits — anywhere in the string. -/
def ContainsRangeSpec (s : String) : Prop :=
  ∃ pre d1 d2 d3 suf : List Char,
    s.data = pre ++ d1 ++ '-' :: d2 ++ ':' :: (d3 ++ suf) ∧
    d1 ≠ [] ∧ d2 ≠ [] ∧ d3 ≠ [] ∧
    (∀ c ∈ d1, isDigitChar c = true) ∧ (∀ c ∈ d2, isDigitChar c = true) ∧
    (∀ c ∈ d3, isDigitChar c = true)

/-- Specification wording for the expanded task ids: the values
`start, start + step, start + 2*step, …` that are at most `end`, in ascending
order (empty when `start > end` or the step is not positive). -/
def rangeIds (b e step : Int) : List Int :=
  if 0 < step ∧ b ≤ e then
    (List.range ((e - b).toNat / step.toNat + 1)).map (fun k : Nat => b + step * (k : Int))
  else []

/-- Concrete job fixture used by the concrete-input theorems: a fully populated
`Job` whose task source is the given string. -/
def mkTestJob (src : String) : Job where
  stateAttribute := "running"
  state := "r"
  jbJobNumber := 3077
  jatPriority := ⟨0, 0⟩
  jobName := "Job1292"
  jobOwner := "Owner"
  startTime := "2019-09-14T22:18:29"
  submittedTime := "2019-09-14T22:18:20"
  slots := 1
  tasks := { source := src, taskID := 0 }

/-! ## Lemmas: digits and character utilities -/

theorem isDigitChar_ne_hyphen {c : Char} (h : isDigitChar c = true) : c ≠ '-' := by
  rintro rfl; exact absurd h (by decide)

theorem isDigitChar_ne_plus {c : Char} (h : isDigitChar c = true) : c ≠ '+' := by
  rintro rfl; exact absurd h (by decide)

theorem isDigitChar_ne_colon {c : Char} (h : isDigitChar c = true) : c ≠ ':' := by
  rintro rfl; exact absurd h (by decide)

theorem isDigitChar_digitChar {d : Nat} (h : d < 10) : isDigitChar (digitChar d) = true := by
  interval_cases d <;> decide

theorem digitVal_digitChar {d : Nat} (h : d < 10) : digitVal (digitChar d) = d := by
  interval_cases d <;> decide

theorem takeWhile_append_all {p : Char → Bool} {d : List Char}
    (h : ∀ c ∈ d, p c = true) (r : List Char) :
    (d ++ r).takeWhile p = d ++ r.takeWhile p := by
  induction d with
  | nil => rfl
  | cons c t ih =>
    have hc : p c = true := h c (by simp)
    simp only [List.cons_append, List.takeWhile_cons_of_pos hc]
    rw [ih (fun x hx => h x (by simp [hx]))]

theorem dropWhile_append_all {p : Char → Bool} {d : List Char}
    (h : ∀ c ∈ d, p c = true) (r : List Char) :
    (d ++ r).dropWhile p = r.dropWhile p := by
  induction d with
  | nil => rfl
  | cons c t ih =>
    have hc : p c = true := h c (by simp)
    simp only [List.cons_append, List.dropWhile_cons_of_pos hc]
    exact ih (fun x hx => h x (by simp [hx]))

theorem dropWhile_head_false {p : Char → Bool} {l : List Char} {c : Char} {t : List Char}
    (h : l.dropWhile p = c :: t) : p c = false := by
  have := List.head?_dropWhile_not p l
  rw [h] at this
  simpa using this

/-! ## Lemmas: decimal rendering (`strconv.Itoa`) and parsing (`strconv.ParseInt`) -/

theorem natDigitsAux_fuel {f1 f2 n : Nat} (h1 : n < f1) (h2 : n < f2) :
    natDigitsAux f1 n = natDigitsAux f2 n := by
  induction f1 generalizing f2 n with
  | zero => omega
  | succ f ih =>
    cases f2 with
    | zero => omega
    | succ g =>
      simp only [natDigitsAux]
      by_cases h10 : n < 10
      · simp [h10]
      · have hd : n / 10 < n := Nat.div_lt_self (by omega) (by omega)
        simp only [if_neg h10]
        congr 1
        exact ih (by omega) (by omega)

theorem natDigits_eq (n : Nat) :
    natDigits n = if n < 10 then [digitChar n]
      else natDigits (n / 10) ++ [digitChar (n % 10)] := by
  show natDigitsAux (n + 1) n = _
  simp only [natDigitsAux]
  by_cases h : n < 10
  · simp [h]
  · have hd : n / 10 < n := Nat.div_lt_self (by omega) (by omega)
    simp only [if_neg h]
    congr 1
    exact natDigitsAux_fuel (by omega) (Nat.lt_succ_self _)

theorem natDigits_ne_nil (n : Nat) : natDigits n ≠ [] := by
  rw [natDigits_eq]
  split <;> simp

theorem natDigits_all_digit (n : Nat) : ∀ c ∈ natDigits n, isDigitChar c = true := by
  induction n using Nat.strong_induction_on with
  | _ n ih =>
    rw [natDigits_eq]
    by_cases h : n < 10
    · simp only [if_pos h, List.mem_singleton]
      rintro c rfl
      exact isDigitChar_digitChar h
    · simp only [if_neg h]
      intro c hc
      rcases List.mem_append.1 hc with h1 | h2
      · exact ih (n / 10) (Nat.div_lt_self (by omega) (by omega)) c h1
      · simp only [List.mem_singleton] at h2
        subst h2
        exact isDigitChar_digitChar (Nat.mod_lt _ (by omega))

theorem digitsToNat_append (l : List Char) (c : Char) :
    digitsToNat (l ++ [c]) = digitsToNat l * 10 + digitVal c := by
  simp [digitsToNat, List.foldl_append]

theorem digitsToNat_natDigits (n : Nat) : digitsToNat (natDigits n) = n := by
  induction n using Nat.strong_induction_on with
  | _ n ih =>
    rw [natDigits_eq]
    by_cases h : n < 10
    · simp only [if_pos h]
      simp [digitsToNat, digitVal_digitChar h]
    · simp only [if_neg h]
      rw [digitsToNat_append, ih (n / 10) (Nat.div_lt_self (by omega) (by omega)),
        digitVal_digitChar (Nat.mod_lt _ (by omega))]
      omega

theorem splitSign_neg (l : List Char) : splitSign ('-' :: l) = (true, l) := by
  simp [splitSign]

theorem splitSign_digits {l : List Char} (hne : l ≠ []) (h : ∀ c ∈ l, isDigitChar c = true) :
    splitSign l = (false, l) := by
  cases l with
  | nil => exact absurd rfl hne
  | cons c t =>
    have hc := h c (by simp)
    simp only [splitSign]
    rw [if_neg (isDigitChar_ne_hyphen hc), if_neg (isDigitChar_ne_plus hc)]

theorem decDigits?_digits {l : List Char} (hne : l ≠ []) (h : ∀ c ∈ l, isDigitChar c = true) :
    decDigits? l = some (digitsToNat l) := by
  simp only [decDigits?]
  rw [if_pos ⟨hne, List.all_eq_true.2 h⟩]

theorem parseIntChars_eq_of_sign {bits : Nat} {l d : List Char} {sg : Bool}
    (hs : splitSign l = (sg, d)) (hd : decDigits? d = some (digitsToNat d)) :
    parseIntChars bits l =
      (if sg then (if (digitsToNat d : Int) ≤ 2 ^ (bits - 1) then some (-(digitsToNat d : Int)) else none)
       else (if (digitsToNat d : Int) ≤ 2 ^ (bits - 1) - 1 then some ((digitsToNat d : Int)) else none)) := by
  unfold parseIntChars
  rw [hs]
  show (match decDigits? d with
    | none => none
    | some n =>
      if sg then (if (n : Int) ≤ 2 ^ (bits - 1) then some (-(n : Int)) else none)
      else (if (n : Int) ≤ 2 ^ (bits - 1) - 1 then some ((n : Int)) else none)) = _
  rw [hd]

theorem parseIntChars_digits {bits : Nat} {l : List Char} (hne : l ≠ [])
    (h : ∀ c ∈ l, isDigitChar c = true)
    (hb : (digitsToNat l : Int) ≤ 2 ^ (bits - 1) - 1) :
    parseIntChars bits l = some ((digitsToNat l : Int)) := by
  rw [parseIntChars_eq_of_sign (splitSign_digits hne h) (decDigits?_digits hne h)]
  simp [hb]

theorem parseIntChars_intToString {v : Int} (hlo : -(2 ^ 63) ≤ v) (hhi : v ≤ 2 ^ 63 - 1) :
    parseIntChars 64 (intToString v).data = some v := by
  have h63 : (64 - 1 : Nat) = 63 := rfl
  by_cases hv : v < 0
  · simp only [intToString, if_pos hv]
    show parseIntChars 64 ('-' :: natDigits v.natAbs) = some v
    rw [parseIntChars_eq_of_sign (splitSign_neg _)
      (decDigits?_digits (natDigits_ne_nil _) (natDigits_all_digit _))]
    simp only [if_true, digitsToNat_natDigits, h63]
    rw [if_pos (by omega)]
    congr 1
    omega
  · simp only [intToString, if_neg hv]
    show parseIntChars 64 (natDigits v.natAbs) = some v
    rw [parseIntChars_digits (natDigits_ne_nil _) (natDigits_all_digit _)
      (by rw [digitsToNat_natDigits, h63]; omega), digitsToNat_natDigits]
    have hva : ((v.natAbs : Nat) : Int) = v := by omega
    rw [hva]

theorem goContains_eq_false {s : String} {ch : Char} (h : ∀ c ∈ s.data, c ≠ ch) :
    goContains s ch = false := by
  simp only [goContains, List.any_eq_false]
  intro c hc
  simp [h c hc]

theorem goContains_eq_true {s : String} {ch : Char} (h : ch ∈ s.data) :
    goContains s ch = true := by
  simp only [goContains, List.any_eq_true]
  exact ⟨ch, h, by simp⟩

theorem stringData_mk (l : List Char) : (String.mk l).data = l := rfl

theorem goContains_intToString_colon (v : Int) : goContains (intToString v) ':' = false := by
  apply goContains_eq_false
  intro c hc
  by_cases hv : v < 0
  · simp only [intToString, if_pos hv, stringData_mk, List.mem_cons] at hc
    rcases hc with rfl | hmem
    · decide
    · exact isDigitChar_ne_colon (natDigits_all_digit _ c hmem)
  · simp only [intToString, if_neg hv, stringData_mk] at hc
    exact isDigitChar_ne_colon (natDigits_all_digit _ c hc)

/-! ## Lemmas: `strings.Split` model -/

theorem matchRangeAt_exact {d1 d2 : List Char} {c : Char} (rest : List Char)
    (h1 : d1 ≠ []) (ha1 : ∀ x ∈ d1, isDigitChar x = true)
    (h2 : d2 ≠ []) (ha2 : ∀ x ∈ d2, isDigitChar x = true)
    (hc : isDigitChar c = true) :
    matchRangeAt (d1 ++ '-' :: (d2 ++ ':' :: c :: rest)) =
      some (d1 ++ '-' :: (d2 ++ [':', c])) := by
  have ht1 : (d1 ++ '-' :: (d2 ++ ':' :: c :: rest)).takeWhile isDigitChar = d1 := by
    rw [takeWhile_append_all ha1, List.takeWhile_cons_of_neg (by decide), List.append_nil]
  have hd1 : (d1 ++ '-' :: (d2 ++ ':' :: c :: rest)).dropWhile isDigitChar
      = '-' :: (d2 ++ ':' :: c :: rest) := by
    rw [dropWhile_append_all ha1, List.dropWhile_cons_of_neg (by decide)]
  have ht2 : (d2 ++ ':' :: c :: rest).takeWhile isDigitChar = d2 := by
    rw [takeWhile_append_all ha2, List.takeWhile_cons_of_neg (by decide), List.append_nil]
  have hd2 : (d2 ++ ':' :: c :: rest).dropWhile isDigitChar = ':' :: c :: rest := by
    rw [dropWhile_append_all ha2, List.dropWhile_cons_of_neg (by decide)]
  obtain ⟨a1, t1, rfl⟩ := List.exists_cons_of_ne_nil h1
  obtain ⟨a2, t2, rfl⟩ := List.exists_cons_of_ne_nil h2
  simp only [matchRangeAt, ht1, hd1]
  simp only [ht2, hd2]
  simp [hc]

theorem matchRangeAt_eq_some {l m : List Char} (h : matchRangeAt l = some m) :
    ∃ d1 d2 c rest, l = d1 ++ '-' :: (d2 ++ ':' :: c :: rest) ∧ d1 ≠ [] ∧ d2 ≠ [] ∧
      (∀ x ∈ d1, isDigitChar x = true) ∧ (∀ x ∈ d2, isDigitChar x = true) ∧
      isDigitChar c = true ∧ m = d1 ++ '-' :: (d2 ++ [':', c]) := by
  simp only [matchRangeAt] at h
  split at h
  case _ x1 t1 hd r2 heq1 heq2 =>
    split at h
    case isTrue hhd =>
      split at h
      case _ x2 t2 hd2 r4 heq3 heq4 =>
        split at h
        case isTrue hhd2 =>
          split at h
          case _ c r5 =>
            split at h
            case isTrue hc =>
              refine ⟨x1 :: t1, x2 :: t2, c, r5, ?_, by simp, by simp, ?_, ?_, hc, ?_⟩
              · subst hhd hhd2
                conv_lhs => rw [← List.takeWhile_append_dropWhile isDigitChar l, heq1, heq2]
                have : r2 = (x2 :: t2) ++ ':' :: c :: r5 := by
                  conv_lhs => rw [← List.takeWhile_append_dropWhile isDigitChar r2, heq3, heq4]
                rw [this]
              · intro x hx
                rw [← heq1] at hx
                exact List.mem_takeWhile_imp hx
              · intro x hx
                rw [← heq3] at hx
                exact List.mem_takeWhile_imp hx
              · rw [heq1, heq3] at h
                injection h with h'
                exact h'.symm
            case isFalse => exact absurd h (by simp)
          case _ => exact absurd h (by simp)
        case isFalse => exact absurd h (by simp)
      case _ => exact absurd h (by simp)
    case isFalse => exact absurd h (by simp)
  case _ => exact absurd h (by simp)

theorem findRange_eq_of_matchAt {l m : List Char} (hl : l ≠ []) (h : matchRangeAt l = some m) :
    findRange l = some m := by
  cases l with
  | nil => exact absurd rfl hl
  | cons c rest => simp [findRange, h]

theorem findRange_eq_some {l m : List Char} (h : findRange l = some m) :
    ∃ pre rest, l = pre ++ rest ∧ matchRangeAt rest = some m := by
  induction l with
  | nil => simp [findRange] at h
  | cons c t ih =>
    simp only [findRange] at h
    cases hm : matchRangeAt (c :: t) with
    | some m' =>
      rw [hm] at h
      refine ⟨[], c :: t, by simp, ?_⟩
      rw [hm]
      exact h
    | none =>
      rw [hm] at h
      obtain ⟨pre, rest, hpre, hmr⟩ := ih h
      exact ⟨c :: pre, rest, by simp [hpre], hmr⟩

theorem findRange_isSome_of_decomp (pre d1 d2 : List Char) (c : Char) (rest : List Char)
    (h1 : d1 ≠ []) (ha1 : ∀ x ∈ d1, isDigitChar x = true)
    (h2 : d2 ≠ []) (ha2 : ∀ x ∈ d2, isDigitChar x = true)
    (hc : isDigitChar c = true) :
    (findRange (pre ++ (d1 ++ '-' :: (d2 ++ ':' :: c :: rest)))).isSome = true := by
  induction pre with
  | nil =>
    rw [List.nil_append, findRange_eq_of_matchAt ?_ (matchRangeAt_exact rest h1 ha1 h2 ha2 hc)]
    · rfl
    · obtain ⟨a, t, rfl⟩ := List.exists_cons_of_ne_nil h1
      simp
  | cons p ps ih =>
    rw [List.cons_append]
    simp only [findRange]
    cases hm : matchRangeAt (p :: (ps ++ (d1 ++ '-' :: (d2 ++ ':' :: c :: rest)))) with
    | some m' => rfl
    | none => exact ih

/-! ## Lemmas: the expansion loop and the specified id sequence -/

theorem wrapInt64_eq_self {x : Int} (h1 : -(2 ^ 63) ≤ x) (h2 : x ≤ 2 ^ 63 - 1) :
    wrapInt64 x = x := by
  unfold wrapInt64
  rw [Int.emod_eq_of_lt (by omega) (by omega)]
  omega

theorem wrapInt64_bounds (x : Int) : -(2 ^ 63) ≤ wrapInt64 x ∧ wrapInt64 x ≤ 2 ^ 63 - 1 := by
  unfold wrapInt64
  have hnn := Int.emod_nonneg (x + 2 ^ 63) (show (2 : Int) ^ 64 ≠ 0 by positivity)
  have hlt := Int.emod_lt_of_pos (x + 2 ^ 63) (show (0 : Int) < 2 ^ 64 by positivity)
  omega

theorem extrapolateLoop_zero_step (orig : Job) :
    ∀ (fuel : Nat) (i e : Int) (acc : List Job),
      -(2 ^ 63) ≤ i → i ≤ 2 ^ 63 - 1 → i ≤ e →
      extrapolateLoop orig fuel i e 0 acc = none := by
  intro fuel
  induction fuel with
  | zero => intro i e acc h1 h2 h; rfl
  | succ f ih =>
    intro i e acc h1 h2 h
    simp only [extrapolateLoop, if_pos h]
    rw [show wrapInt64 (i + 0) = i from by rw [add_zero]; exact wrapInt64_eq_self h1 h2]
    exact ih i e _ h1 h2 h

theorem extrapolateLoop_end_maxInt64 (orig : Job) :
    ∀ (fuel : Nat) (i step : Int) (acc : List Job), i ≤ 2 ^ 63 - 1 →
      extrapolateLoop orig fuel i (2 ^ 63 - 1) step acc = none := by
  intro fuel
  induction fuel with
  | zero => intro i step acc hi; rfl
  | succ f ih =>
    intro i step acc hi
    simp only [extrapolateLoop, if_pos hi]
    exact ih _ _ _ (wrapInt64_bounds (i + step)).2

theorem extrapolateLoop_mem_source {orig : Job} :
    ∀ (fuel : Nat) (i e step : Int) (acc : List Job) (jl : JobList) (err : Option String),
      extrapolateLoop orig fuel i e step acc = some (jl, err) →
      (∀ x ∈ acc, x.tasks.source = orig.tasks.source) →
      ∀ x ∈ jl, x.tasks.source = orig.tasks.source := by
  intro fuel
  induction fuel with
  | zero => intro i e step acc jl err h hacc; simp [extrapolateLoop] at h
  | succ f ih =>
    intro i e step acc jl err h hacc
    by_cases hie : i ≤ e
    · simp only [extrapolateLoop, if_pos hie] at h
      refine ih _ _ _ _ _ _ h ?_
      intro x hx
      rcases List.mem_append.1 hx with hx1 | hx2
      · exact hacc x hx1
      · simp only [List.mem_singleton] at hx2
        subst hx2
        rfl
    · simp only [extrapolateLoop, if_neg hie] at h
      injection h with h'
      injection h' with h1 h2
      subst h1
      exact hacc

/-! ## Lemmas: paths through `ExtrapolateTasksToJobs` -/

theorem extrapolate_no_match {j : Job} (fuel : Nat)
    (h : findRange j.tasks.source.data = none) :
    ExtrapolateTasksToJobs fuel j =
      some ([], some "The provided job does not actually indicate a range of tasks") := by
  unfold ExtrapolateTasksToJobs DoesJobContainTaskRange
  simp [h]

theorem extrapolate_eq_loop {j : Job} {m rc inc bs es : List Char} {b e s : Int} (fuel : Nat)
    (hm : findRange j.tasks.source.data = some m)
    (hsp1 : splitOnChar ':' m = [rc, inc])
    (hsp2 : splitOnChar '-' rc = [bs, es])
    (hi : parseIntChars 64 inc = some s)
    (hb : parseIntChars 64 bs = some b)
    (he : parseIntChars 64 es = some e) :
    ExtrapolateTasksToJobs fuel j = extrapolateLoop j fuel b e s [] := by
  unfold ExtrapolateTasksToJobs DoesJobContainTaskRange
  simp only [hm, Option.isSome_some, Bool.not_true, Bool.false_eq_true, if_false,
    Option.getD_some, hsp1, List.getD_cons_zero, List.getD_cons_succ, hsp2, hi, hb, he]

/-! ## Lemmas: resource lookup and filtering -/

theorem locateKey_not_found {r : ResourceList} {key : String}
    (h : ∀ c ∈ r, c.name ≠ key) :
    ResourceList.locateKey r key =
      ({ name := "", type := "", value := "" }, some "Could not located the requested key") := by
  induction r with
  | nil => rfl
  | cons c rest ih =>
    simp only [ResourceList.locateKey]
    rw [if_neg (h c (by simp))]
    exact ih (fun x hx => h x (by simp [hx]))

theorem locateKey_eq_find? (r : ResourceList) (key : String) :
    ResourceList.locateKey r key =
      match r.find? (fun c => c.name == key) with
      | some res => (res, none)
      | none =>
        ({ name := "", type := "", value := "" }, some "Could not located the requested key") := by
  induction r with
  | nil => rfl
  | cons c rest ih =>
    by_cases hc : c.name = key
    · simp [ResourceList.locateKey, List.find?_cons, hc]
    · have hbeq : (c.name == key) = false := by simp [hc]
      simp only [ResourceList.locateKey, List.find?_cons, hbeq, if_neg hc]
      exact ih

theorem filter_foldl_eq (p : Job → Bool) (jl : List Job) :
    ∀ acc : List Job,
      List.foldl (fun jobs v => if p v then jobs ++ [v] else jobs) acc jl = acc ++ jl.filter p := by
  induction jl with
  | nil => intro acc; simp
  | cons j t ih =>
    intro acc
    by_cases hj : p j
    · rw [List.foldl_cons, if_pos hj, ih, List.filter_cons_of_pos hj]
      simp
    · rw [List.foldl_cons, if_neg hj, ih, List.filter_cons_of_neg (by simp [hj])]

theorem filter_filter_and (jl : List Job) (p q : Job → Bool) :
    (jl.filter p).filter q = jl.filter (fun j => p j && q j) := by
  induction jl with
  | nil => rfl
  | cons j t ih =>
    by_cases hp : p j <;> by_cases hq : q j <;>
      simp [List.filter_cons, hp, hq, ih]

/-! ## Lemmas: the range-detection boolean against the specification wording -/

theorem findRange_isSome_iff_spec (s : String) :
    (findRange s.data).isSome = true ↔ ContainsRangeSpec s := by
  constructor
  · intro h
    obtain ⟨m, hm⟩ := Option.isSome_iff_exists.1 h
    obtain ⟨pre, rest, hpre, hmr⟩ := findRange_eq_some hm
    obtain ⟨d1, d2, c, r5, hrest, h1, h2, ha1, ha2, hc, _⟩ := matchRangeAt_eq_some hmr
    refine ⟨pre, d1, d2, [c], r5, ?_, h1, h2, by simp, ha1, ha2, ?_⟩
    · rw [hpre, hrest]
      simp
    · intro x hx
      simp only [List.mem_singleton] at hx
      subst hx
      exact hc
  · rintro ⟨pre, d1, d2, d3, suf, hdata, h1, h2, h3, ha1, ha2, ha3⟩
    obtain ⟨c, d3t, rfl⟩ := List.exists_cons_of_ne_nil h3
    rw [hdata]
    have hdec := findRange_isSome_of_decomp pre d1 d2 c (d3t ++ suf)
      h1 ha1 h2 ha2 (ha3 c (by simp))
    simpa using hdec

theorem unmarshalXML_source (s : String) : (Task.unmarshalXML s).1.source = s := by
  unfold Task.unmarshalXML
  by_cases h : goContains s ':'
  · rw [if_pos h]
  · rw [if_neg h]
    cases parseIntChars 64 s.data <;> rfl

theorem findRange_some_colon_mem {l m : List Char} (h : findRange l = some m) : ':' ∈ l := by
  obtain ⟨pre, rest, rfl, hmr⟩ := findRange_eq_some h
  obtain ⟨d1, d2, c, r5, hrest, _, _, _, _, _, _⟩ := matchRangeAt_eq_some hmr
  subst hrest
  simp

/-- Faithfulness of the wrapped loop counter at the overflow corner: when the
range expression ends at `maxInt64` (here start `2^63 - 2`, end `2^63 - 1`,
step 9), no `int64` value can ever exceed `end`, because the increment wraps to
a negative value; the Go loop therefore never returns, and neither does the
model, whatever fuel it is given. -/
theorem extrapolate_wrapping_end_diverges :
    ∀ fuel : Nat,
      ExtrapolateTasksToJobs fuel
        (mkTestJob "9223372036854775806-9223372036854775807:9") = none := by
  intro fuel
  have hm : findRange
        (mkTestJob "9223372036854775806-9223372036854775807:9").tasks.source.data
      = some ("9223372036854775806-9223372036854775807:9".data) := by decide
  have hs1 : splitOnChar ':' "9223372036854775806-9223372036854775807:9".data
      = ["9223372036854775806-9223372036854775807".data, ['9']] := by decide
  have hs2 : splitOnChar '-' "9223372036854775806-9223372036854775807".data
      = ["9223372036854775806".data, "9223372036854775807".data] := by decide
  have hp9 : parseIntChars 64 ['9'] = some 9 := by decide
  have hpb : parseIntChars 64 "9223372036854775806".data = some 9223372036854775806 := by
    decide
  have hpe : parseIntChars 64 "9223372036854775807".data = some 9223372036854775807 := by
    decide
  rw [extrapolate_eq_loop fuel hm hs1 hs2 hp9 hpb hpe,
    show (9223372036854775807 : Int) = 2 ^ 63 - 1 by norm_num]
  exact extrapolateLoop_end_maxInt64 _ fuel 9223372036854775806 9 [] (by omega)

/-! ## Claim theorems -/

/-- C2 (code bug) — the claim says a zero step is rejected with a DomainError
and the call always terminates, but the code has no such guard: for source
`"40-55:0"` the loop increments `i` by zero and never returns, whatever fuel
(number of iterations) it is given. -/
theorem extrapolateTasksToJobs_zeroStep_diverges :
    ∀ fuel : Nat, ExtrapolateTasksToJobs fuel (mkTestJob "40-55:0") = none := by
  intro fuel
  have hm : findRange (mkTestJob "40-55:0").tasks.source.data = some ("40-55:0".data) := by
    decide
  have hs1 : splitOnChar ':' "40-55:0".data = [['4', '0', '-', '5', '5'], ['0']] := by decide
  have hs2 : splitOnChar '-' ['4', '0', '-', '5', '5'] = [['4', '0'], ['5', '5']] := by decide
  have hp0 : parseIntChars 64 ['0'] = some 0 := by decide
  have hp40 : parseIntChars 64 ['4', '0'] = some 40 := by decide
  have hp55 : parseIntChars 64 ['5', '5'] = some 55 := by decide
  rw [extrapolate_eq_loop fuel hm hs1 hs2 hp0 hp40 hp55]
  exact extrapolateLoop_zero_step _ fuel 40 55 [] (by omega) (by omega) (by omega)

/-- C5 (confirmed) — calling `ExtrapolateTasksToJobs` on a Job whose Task
source contains no range-pattern match fails with the DomainError message and
yields the empty job list, never a silent no-op. -/
theorem extrapolate_noRange_fails (j : Job) (fuel : Nat)
    (h : ¬ ContainsRangeSpec j.tasks.source) :
    ExtrapolateTasksToJobs fuel j =
      some ([], some "The provided job does not actually indicate a range of tasks") := by
  cases hfr : findRange j.tasks.source.data with
  | none => exact extrapolate_no_match fuel hfr
  | some m =>
    refine absurd ((findRange_isSome_iff_spec j.tasks.source).1 ?_) h
    rw [hfr]
    rfl

/-- C5 witness: source `"42"` (no range) produces the DomainError and no jobs. -/
theorem extrapolate_noRange_fails_witness :
    ExtrapolateTasksToJobs 5 (mkTestJob "42") =
      some ([], some "The provided job does not actually indicate a range of tasks") := by
  refine extrapolate_noRange_fails (mkTestJob "42") 5 ?_
  intro hspec
  have h2 := (findRange_isSome_iff_spec ((mkTestJob "42").tasks.source)).2 hspec
  exact absurd h2 (by decide)

/-- C3 (amended) — decode→encode round-trips exactly for colon-containing
strings (emitted verbatim) and for colon-free strings in canonical decimal form
(equal to `Itoa` of their value, i.e. no leading zeros and no plus sign) with a
nonzero value; a decoded task id of zero is emitted as absent.  Non-canonical
accepted strings such as `"007"` re-encode to the canonical form instead
(see the counterexample). -/
theorem task_decode_encode_roundTrip (s : String) :
    (goContains s ':' = true →
      Task.unmarshalXML s = ({ source := s, taskID := 0 }, none) ∧
      Task.marshalXML (Task.unmarshalXML s).1 = some s)
    ∧ (∀ v : Int, -(2 ^ 63) ≤ v → v ≤ 2 ^ 63 - 1 → v ≠ 0 → s = intToString v →
        (Task.unmarshalXML s).2 = none ∧ (Task.unmarshalXML s).1.taskID = v ∧
        Task.marshalXML (Task.unmarshalXML s).1 = some s)
    ∧ ((Task.unmarshalXML s).2 = none → (Task.unmarshalXML s).1.taskID = 0 →
        goContains s ':' = false → Task.marshalXML (Task.unmarshalXML s).1 = none) := by
  refine ⟨?_, ?_, ?_⟩
  · intro hcolon
    unfold Task.unmarshalXML
    rw [if_pos hcolon]
    exact ⟨rfl, by unfold Task.marshalXML; rw [if_pos hcolon]⟩
  · intro v hlo hhi hv0 hs
    subst hs
    have hnc : goContains (intToString v) ':' = false := goContains_intToString_colon v
    unfold Task.unmarshalXML
    rw [if_neg (by simp [hnc]), parseIntChars_intToString hlo hhi]
    refine ⟨rfl, rfl, ?_⟩
    unfold Task.marshalXML
    rw [if_neg (by simp [hnc]), if_neg hv0]
  · intro herr hzero hnc
    unfold Task.marshalXML
    rw [unmarshalXML_source, if_neg (by simp [hnc]), if_pos hzero]

/-- C3 witness: the canonical string `"-7"` decodes with task id `-7` and
re-encodes to `"-7"` exactly. -/
theorem task_decode_encode_roundTrip_witness :
    (Task.unmarshalXML "-7").2 = none ∧ (Task.unmarshalXML "-7").1.taskID = -7 ∧
      Task.marshalXML (Task.unmarshalXML "-7").1 = some "-7" :=
  (task_decode_encode_roundTrip "-7").2.1 (-7) (by decide) (by decide) (by decide) (by decide)

/-- C3 counterexample — the claim as stated fails on an accepted non-canonical
integer string: `"007"` decodes successfully to task id 7 but re-encodes as
`"7"`, not the original `"007"`. -/
theorem claim3_counterexample :
    Task.unmarshalXML "007" = ({ source := "007", taskID := 7 }, none) ∧
    Task.marshalXML ({ source := "007", taskID := 7 } : Task) = some "7" ∧
    ("7" : String) ≠ "007" := by
  refine ⟨by decide, by decide, by decide⟩

/-- C4 (code bug) — the claim says the storage-value converter never aborts
the process, but `input[len(input)-1]` panics with an index-out-of-range
runtime error on the empty string, and the panic propagates through the
storage accessors such as `FreeMemory`. -/
theorem newStorageValue_empty_panics :
    newStorageValue "" = GoCall.panics "runtime error: index out of range" ∧
    ResourceList.FreeMemory [{ name := "mem_free", type := "hl", value := "" }] =
      GoCall.panics "runtime error: index out of range" :=
  ⟨rfl, rfl⟩

/-- C6 (confirmed) — `DoesJobContainTaskRange` never returns an error
(the constant pattern always compiles), and it returns true exactly when the
Task's source contains, anywhere in the string, a substring of one or more
digits, a hyphen, one or more digits, a colon and one or more digits. -/
theorem doesJobContainTaskRange_iff_spec (j : Job) :
    (DoesJobContainTaskRange j).2 = none ∧
      ((DoesJobContainTaskRange j).1 = true ↔ ContainsRangeSpec j.tasks.source) :=
  ⟨rfl, findRange_isSome_iff_spec j.tasks.source⟩

/-- C7 (confirmed) — `newStorageValue` splits off the last character as the
scale, parses the remainder as a `float64` into the size (failing with the
parse error exactly when that parse fails), computes the byte count as the size
times the decimal factor (`10^9` for G, `10^6` for M, `10^12` for T) truncated
to an integer, and leaves the byte count zero with no error for any other
suffix; `"10.2G"` yields size 10.2 (the `float64` nearest 10.2, which is
`5742089524897382 * 2^-49`), scale `"G"` and bytes `10200000000`, and `"512M"`
yields bytes `512000000`. -/
theorem newStorageValue_converter_correct (input : String) (rest : List Char) (lastChar : Char)
    (hsplit : input.data = rest ++ [lastChar]) :
    (parseFloat64 rest = none →
      newStorageValue input =
        .ret ({ size := ⟨0, 0⟩, scale := "", bytes := 0 },
          some "strconv.ParseFloat: parse error")) ∧
    (∀ sz, parseFloat64 rest = some sz →
      newStorageValue input =
        .ret ({ size := sz, scale := String.mk [lastChar],
                bytes :=
                  if String.mk [lastChar] = "G" then int64OfF64 (fmul sz ⟨1000000000, 0⟩)
                  else if String.mk [lastChar] = "M" then int64OfF64 (fmul sz ⟨1000000, 0⟩)
                  else if String.mk [lastChar] = "T" then
                    int64OfF64 (fmul sz ⟨1000000000000, 0⟩)
                  else 0 }, none)) ∧
    newStorageValue "10.2G" =
      .ret ({ size := ⟨5742089524897382, -49⟩, scale := "G", bytes := 10200000000 }, none) ∧
    newStorageValue "512M" =
      .ret ({ size := ⟨4503599627370496, -43⟩, scale := "M", bytes := 512000000 }, none) := by
  refine ⟨?_, ?_, by decide, by decide⟩
  · intro hp
    unfold newStorageValue
    rw [hsplit, List.getLast?_concat, List.dropLast_concat]
    simp only [hp]
  · intro sz hp
    unfold newStorageValue
    rw [hsplit, List.getLast?_concat, List.dropLast_concat]
    simp only [hp]

/-- C7 witness: instantiated at `"10.2G"`, whose data splits as
`"10.2" ++ "G"`, with the parsed size being the `float64` nearest 10.2. -/
theorem newStorageValue_converter_correct_witness :
    newStorageValue "10.2G" =
      GoCall.ret ({ size := ⟨5742089524897382, -49⟩, scale := String.mk ['G'],
                    bytes :=
                      if String.mk ['G'] = "G"
                      then int64OfF64 (fmul ⟨5742089524897382, -49⟩ ⟨1000000000, 0⟩)
                      else if String.mk ['G'] = "M"
                      then int64OfF64 (fmul ⟨5742089524897382, -49⟩ ⟨1000000, 0⟩)
                      else if String.mk ['G'] = "T"
                      then int64OfF64 (fmul ⟨5742089524897382, -49⟩ ⟨1000000000000, 0⟩)
                      else 0 }, none) :=
  (newStorageValue_converter_correct "10.2G" "10.2".data 'G' (by decide)).2.1
    ⟨5742089524897382, -49⟩ (by decide)

/-- C8 (confirmed) — `locateKey` scans linearly and returns the first Resource
whose name equals the key; when the key is absent the typed accessors
(`NumberofProcessors`, `Load`, `FreeMemory`) return the not-found error rather
than silently a zero value; and in a list containing `{name:"num_proc",
value:"8"}` the `NumberofProcessors` accessor returns the 32-bit integer 8. -/
theorem resourceList_lookup_correct (r : ResourceList) (key : String) :
    (ResourceList.locateKey r key =
      match r.find? (fun c => c.name == key) with
      | some res => (res, none)
      | none =>
        ({ name := "", type := "", value := "" },
          some "Could not located the requested key")) ∧
    ((∀ c ∈ r, c.name ≠ "num_proc") →
      ResourceList.NumberofProcessors r = (0, some "Could not located the requested key")) ∧
    ((∀ c ∈ r, c.name ≠ "load_short") →
      ResourceList.Load r "short" = (⟨0, 0⟩, some "Could not located the requested key")) ∧
    ((∀ c ∈ r, c.name ≠ "mem_free") →
      ResourceList.FreeMemory r =
        .ret ({ size := ⟨0, 0⟩, scale := "", bytes := 0 },
          some "Could not located the requested key")) ∧
    ResourceList.NumberofProcessors [{ name := "num_proc", type := "", value := "8" }] =
      (8, none) := by
  refine ⟨locateKey_eq_find? r key, ?_, ?_, ?_, by decide⟩
  · intro h
    unfold ResourceList.NumberofProcessors
    rw [locateKey_not_found h]
  · intro h
    unfold ResourceList.Load
    rw [show ("load_" ++ "short" : String) = "load_short" from rfl, locateKey_not_found h]
  · intro h
    unfold ResourceList.FreeMemory ResourceList.getStorageValueFromList
    rw [locateKey_not_found h]

/-- C8 witness: a list without `num_proc` makes `NumberofProcessors` fail with
the not-found error. -/
theorem resourceList_lookup_correct_witness :
    ResourceList.NumberofProcessors [{ name := "swap_free", type := "", value := "1G" }] =
      (0, some "Could not located the requested key") :=
  (resourceList_lookup_correct [{ name := "swap_free", type := "", value := "1G" }]
    "num_proc").2.1 (by decide)

/-- C9 (confirmed) — `Filter` returns a new JobList containing exactly the jobs
satisfying the predicate, in original relative order (`List.filter`), without
mutating the receiver (the model is a pure function of it), and chaining two
filters equals filtering by the conjunction of the predicates. -/
theorem jobList_filter_correct (jl : JobList) (p q : Job → Bool) :
    jl.Filter p = jl.filter p ∧
    (jl.Filter p).Filter q = jl.filter (fun j => p j && q j) := by
  have h1 : ∀ (l : JobList) (f : Job → Bool), l.Filter f = l.filter f := by
    intro l f
    unfold JobList.Filter
    rw [filter_foldl_eq]
    rfl
  refine ⟨h1 jl p, ?_⟩
  rw [h1, h1, filter_filter_and]

/-- C10 (confirmed) — every clone produced by a successful
`ExtrapolateTasksToJobs` keeps the original range expression in its Task
source, so `DoesJobContainTaskRange` is still true of the clone and encoding
the clone's Task re-emits the original range expression verbatim, ignoring the
clone's assigned task id. -/
theorem extrapolated_clones_keep_range_source (j : Job) (fuel : Nat) (jl : JobList)
    (h : ExtrapolateTasksToJobs fuel j = some (jl, none)) :
    ∀ x ∈ jl, x.tasks.source = j.tasks.source ∧
      DoesJobContainTaskRange x = (true, none) ∧
      Task.marshalXML x.tasks = some j.tasks.source := by
  cases hm : findRange j.tasks.source.data with
  | none =>
    rw [extrapolate_no_match fuel hm] at h
    simp at h
  | some m =>
    unfold ExtrapolateTasksToJobs DoesJobContainTaskRange at h
    simp only [hm, Option.isSome_some, Bool.not_true, Bool.false_eq_true, if_false,
      Option.getD_some] at h
    split at h
    · simp at h
    split at h
    · simp at h
    split at h
    · simp at h
    intro x hx
    have hsrc : x.tasks.source = j.tasks.source :=
      extrapolateLoop_mem_source fuel _ _ _ [] jl none h (by simp) x hx
    refine ⟨hsrc, ?_, ?_⟩
    · unfold DoesJobContainTaskRange
      rw [hsrc, hm]
      rfl
    · unfold Task.marshalXML
      rw [hsrc, if_pos (goContains_eq_true (findRange_some_colon_mem hm))]

/-- C10 witness: instantiated at the clone with task id 40 produced by the
expansion of `"40-55:5"`. -/
theorem extrapolated_clones_keep_range_source_witness :
    (cloneWithTaskID (mkTestJob "40-55:5") 40).tasks.source =
      (mkTestJob "40-55:5").tasks.source ∧
    DoesJobContainTaskRange (cloneWithTaskID (mkTestJob "40-55:5") 40) = (true, none) ∧
    Task.marshalXML (cloneWithTaskID (mkTestJob "40-55:5") 40).tasks =
      some (mkTestJob "40-55:5").tasks.source :=
  extrapolated_clones_keep_range_source (mkTestJob "40-55:5") 17
    ((rangeIds 40 55 5).map (cloneWithTaskID (mkTestJob "40-55:5"))) (by decide)
    (cloneWithTaskID (mkTestJob "40-55:5") 40) (by decide)

end GoGridEngine
